import Mathlib

/-!
Verification of the media-assembly pipeline of `src/createSlideshow.ts`
(slidedash): deterministic image ordering (`smartSortImages`), the audio
retime chain (`retimeAudio`), per-slide timing allocation, the concat
descriptor (`createConcatListFile`), the narration/background mix command
(`mixNarrationWithBackground`), and the order of external calls made by
`createSlideshowWithTTS`.

Modelling conventions:
- IEEE doubles in the source are modelled as exact rationals (`ℚ`); the one
  place where decimal formatting matters (`toFixed(3)`) is modelled as exact
  rounding to a multiple of 1/1000.
- The host collator (`Intl.Collator(locale, { numeric, sensitivity : base })`)
  is an opaque total preorder supplied by the JS runtime; it is modelled as a
  function parameter `col` returning the sign-significant integer of
  `collator.compare`, constrained by the axioms ECMA-402 guarantees
  (`LawfulCollator`).  A concrete ASCII natural comparator (`natCollator`)
  instantiates it for the worked examples.
- `Array.prototype.sort` with a consistent comparator is the stable sort of
  the ECMAScript specification; it is modelled by `List.mergeSort` on the
  boolean relation `comparator ≤ 0`, which is the same stable sort.
- Behaviour of the external ffmpeg engine (stream durations, `-shortest`)
  is not code of this repository; where a claim needs it, it is modelled
  from the spec and marked `Modelled from the spec:` in the doc string.
-/

namespace Slidedash

/-! ## Timing allocation (`createSlideshowWithTTS`, step 6) -/

/-- Per-slide display duration:
`Math.max(0.5, audioDuration / resizedImages.length)`. -/
def durationPerSlide (audioDuration : ℚ) (frameCount : ℕ) : ℚ :=
  max (1/2) (audioDuration / frameCount)

/-! ## The concat descriptor (`createConcatListFile`) -/

/-- One line of the ffmpeg concat demuxer list written by
`createConcatListFile`: a `file '...'` entry or a `duration d` entry. -/
inductive ConcatLine where
  | file (name : String)
  | dur (seconds : ℚ)
deriving DecidableEq

/-- The single-quote character (code point 39). -/
def squote : Char := Char.ofNat 39

/-- `images[i].replace(/'/g, "'\\''")`: every single quote in a path is
replaced by the four characters quote, backslash, quote, quote. -/
def escapeQuote (s : String) : String :=
  String.mk (s.data.foldl
    (fun acc c =>
      if c = squote then acc ++ [squote, '\\', squote, squote] else acc ++ [c])
    [])

/-- The `for` loop of `createConcatListFile`: for the image at position `i`
push `file '...'`, then push `duration d` whenever `i < images.length - 1`. -/
def concatLoop (n : ℕ) (d : ℚ) : ℕ → List String → List ConcatLine
  | _, [] => []
  | i, img :: rest =>
    if i < n - 1 then
      ConcatLine.file (escapeQuote img) :: ConcatLine.dur d ::
        concatLoop n d (i + 1) rest
    else
      ConcatLine.file (escapeQuote img) :: concatLoop n d (i + 1) rest

/-- `createConcatListFile images duration`: the loop over all images followed
by a repeated `file` line for the last image.  `none` models the `TypeError`
the source raises on an empty list (`images[images.length - 1]` is
`undefined`, so `.replace` throws). -/
def createConcatListFile (images : List String) (d : ℚ) :
    Option (List ConcatLine) :=
  match images.getLast? with
  | none => none
  | some last =>
    some (concatLoop images.length d 0 images ++
      [ConcatLine.file (escapeQuote last)])

/-- Is this concat line a `file` entry? -/
def isFileLine : ConcatLine → Bool
  | ConcatLine.file _ => true
  | ConcatLine.dur _ => false

/-- Is this concat line a `duration` entry? -/
def isDurLine : ConcatLine → Bool
  | ConcatLine.file _ => false
  | ConcatLine.dur _ => true

/-- The names carried by the `file` entries, in order. -/
def fileNames (l : List ConcatLine) : List String :=
  l.filterMap (fun x =>
    match x with
    | ConcatLine.file s => some s
    | ConcatLine.dur _ => none)

/-! ## The retime chain (`retimeAudio`) -/

/-- JS `Number.prototype.toFixed(3)` on a positive value: round to the
nearest multiple of 1/1000, halves rounding up. -/
def toFixed3 (s : ℚ) : ℚ := (⌊s * 1000 + 1/2⌋ : ℚ) / 1000

/-- First loop of `retimeAudio`:
`while (s < 0.5) { filters.push("atempo=0.5"); s /= 0.5; }`.
Fuel-indexed so termination is a theorem, not an assumption: returns the
number of `atempo=0.5` stages pushed and the residual, or `none` when the
fuel runs out. -/
def atempoLowLoop : ℕ → ℚ → Option (ℕ × ℚ)
  | 0, s => if s < 1/2 then none else some (0, s)
  | fuel + 1, s =>
    if s < 1/2 then
      (atempoLowLoop fuel (s / (1/2))).map (fun r => (r.1 + 1, r.2))
    else some (0, s)

/-- Second loop of `retimeAudio`:
`while (s > 2.0) { filters.push("atempo=2.0"); s /= 2.0; }`. -/
def atempoHighLoop : ℕ → ℚ → Option (ℕ × ℚ)
  | 0, s => if 2 < s then none else some (0, s)
  | fuel + 1, s =>
    if 2 < s then
      (atempoHighLoop fuel (s / 2)).map (fun r => (r.1 + 1, r.2))
    else some (0, s)

/-- The atempo factor chain built by `retimeAudio` for a finite positive
speed outside the 1e-3 identity band: both loops, then
`filters.push("atempo=" + s.toFixed(3))` for the residual. -/
def retimeFilters (fuel : ℕ) (speed : ℚ) : Option (List ℚ) :=
  match atempoLowLoop fuel speed with
  | none => none
  | some (a, s1) =>
    match atempoHighLoop fuel s1 with
    | none => none
    | some (b, s2) =>
      some (List.replicate a (1/2) ++ List.replicate b 2 ++ [toFixed3 s2])

/-! ## Pipeline call order (`createSlideshowWithTTS`) -/

/-- A JavaScript number as far as the `retimeAudio` guard distinguishes it:
a finite value (an exact rational), `NaN`, or a signed infinity. -/
inductive JNum where
  | num (q : ℚ)
  | nan
  | inf
  | negInf

/-- The guard of `retimeAudio`: `!isFinite(speed) || speed <= 0`
(`NaN <= 0` is `false`, but `!isFinite` already catches `NaN`). -/
def retimeGuardFails : JNum → Bool
  | JNum.num q => decide (q ≤ 0)
  | JNum.nan => true
  | JNum.inf => true
  | JNum.negInf => true

/-- The externally visible steps of `createSlideshowWithTTS`, in program
order.  `copyFile` is the local `fs.copyFileSync` shortcut of `retimeAudio`;
`errorRaised` is a thrown `Error` aborting the pipeline. -/
inductive PipeEvent where
  | ttsCall
  | copyFile
  | ffmpegRetime
  | ffmpegPad
  | probeCall
  | ffmpegMix
  | resizeCall
  | ffmpegAssemble
  | errorRaised
deriving DecidableEq

/-- Whether the event is a call to an external engine (the OpenAI TTS
service, ffmpeg/ffprobe, or the sharp resizer). -/
def isExternalCall : PipeEvent → Bool
  | PipeEvent.ttsCall => true
  | PipeEvent.copyFile => false
  | PipeEvent.ffmpegRetime => true
  | PipeEvent.ffmpegPad => true
  | PipeEvent.probeCall => true
  | PipeEvent.ffmpegMix => true
  | PipeEvent.resizeCall => true
  | PipeEvent.ffmpegAssemble => true
  | PipeEvent.errorRaised => false

/-- The events of `retimeAudio` itself: the guard throws, the
`|speed - 1| < 1e-3` band copies the file locally, and otherwise ffmpeg is
invoked once with the atempo chain. -/
def retimeEvents : JNum → List PipeEvent
  | JNum.num q =>
    if q ≤ 0 then [PipeEvent.errorRaised]
    else if |q - 1| < 1/1000 then [PipeEvent.copyFile]
    else [PipeEvent.ffmpegRetime]
  | JNum.nan => [PipeEvent.errorRaised]
  | JNum.inf => [PipeEvent.errorRaised]
  | JNum.negInf => [PipeEvent.errorRaised]

/-- The event trace of `createSlideshowWithTTS`: step 1 awaits
`generateTTS`, step 2 awaits `retimeAudio` (whose guard may throw, aborting
the run), then lead-in padding, the duration probe, the optional mix, the
resize, and the final assembly. -/
def pipelineEvents (speed : JNum) (hasBgm : Bool) : List PipeEvent :=
  PipeEvent.ttsCall :: retimeEvents speed ++
    (if retimeGuardFails speed then []
     else
       [PipeEvent.ffmpegPad, PipeEvent.probeCall] ++
         (if hasBgm then [PipeEvent.ffmpegMix] else []) ++
         [PipeEvent.resizeCall, PipeEvent.ffmpegAssemble])

/-- A trace satisfies "the validation error is raised before any external
call" when no external call strictly precedes an `errorRaised` event. -/
def errorBeforeExternals (tr : List PipeEvent) : Bool :=
  (tr.takeWhile (fun e => decide (e ≠ PipeEvent.errorRaised))).all
    (fun e => !isExternalCall e)

/-! ## Held duration of the final frame (assembly stage) -/

/-- Modelled from the spec: the held display time of the final frame is not
computed anywhere under `src/` — it arises from the encoder's
"stop at the shorter stream" rule (spec section 4.7, the `-shortest` output
option): the repeated last frame is shown from the end of the non-final
slides until the audio ends, and never for a negative time. -/
def heldFinalDuration (audioDuration : ℚ) (frameCount : ℕ) (d : ℚ) : ℚ :=
  max 0 (audioDuration - (frameCount - 1 : ℕ) * d)

/-! ## The mix command (`mixNarrationWithBackground`) -/

/-- The `duration` mode of ffmpeg's `amix` filter. -/
inductive AmixDuration where
  | longest
  | first
  | shortest
deriving DecidableEq

/-- The ffmpeg command built by `mixNarrationWithBackground`: narration as
input 0, background as input 1, a `volume` filter on the background, `amix`
with `duration=first`, and `-t ttsLength` on the output. -/
structure MixCommand where
  firstInput : String
  secondInput : String
  volumeFactor : ℚ
  durationMode : AmixDuration
  trimTo : ℚ

/-- The command constructed by `mixNarrationWithBackground`. -/
def mixNarrationWithBackground (narrationPath backgroundPath : String)
    (ttsLength musicVolume : ℚ) : MixCommand :=
  { firstInput := narrationPath
    secondInput := backgroundPath
    volumeFactor := musicVolume
    durationMode := AmixDuration.first
    trimTo := ttsLength }

/-- Modelled from the spec: the ffmpeg engine is external to this
repository; per spec sections 4.3 and 6, `amix` with `duration=first` ends
with its first input, `longest`/`shortest` with the longest/shortest input,
and `-t` then caps the output length. -/
def mixOutputDuration (cmd : MixCommand) (firstDur secondDur : ℚ) : ℚ :=
  min
    (match cmd.durationMode with
     | AmixDuration.first => firstDur
     | AmixDuration.longest => max firstDur secondDur
     | AmixDuration.shortest => min firstDur secondDur)
    cmd.trimTo

/-! ## Lemmas about the concat loop -/

lemma concatLoop_countP_file (n : ℕ) (d : ℚ) :
    ∀ (l : List String) (i : ℕ),
      (concatLoop n d i l).countP isFileLine = l.length := by
  intro l
  induction l with
  | nil => intro i; simp [concatLoop]
  | cons img rest ih =>
    intro i
    by_cases h : i < n - 1 <;>
      simp [concatLoop, h, List.countP_cons, isFileLine, isDurLine, ih (i + 1)]

lemma concatLoop_countP_dur (n : ℕ) (d : ℚ) :
    ∀ (l : List String) (i : ℕ), i + l.length = n →
      (concatLoop n d i l).countP isDurLine = l.length - 1 := by
  intro l
  induction l with
  | nil => intro i _; simp [concatLoop]
  | cons img rest ih =>
    intro i hn
    simp only [List.length_cons] at hn
    by_cases h : i < n - 1
    · have hlen : 0 < rest.length := by omega
      have hr := ih (i + 1) (by omega)
      simp [concatLoop, h, List.countP_cons, isFileLine, isDurLine, hr]
      omega
    · have hlen : rest.length = 0 := by omega
      have hrest : rest = [] := List.length_eq_zero.mp hlen
      subst hrest
      simp [concatLoop, h, List.countP_cons, isFileLine, isDurLine]

lemma concatLoop_fileNames (n : ℕ) (d : ℚ) :
    ∀ (l : List String) (i : ℕ),
      fileNames (concatLoop n d i l) = l.map escapeQuote := by
  intro l
  induction l with
  | nil => intro i; simp [concatLoop, fileNames]
  | cons img rest ih =>
    intro i
    have hr := ih (i + 1)
    simp only [fileNames] at hr ⊢
    by_cases h : i < n - 1 <;> simp [concatLoop, h, hr]

lemma fileNames_append (l1 l2 : List ConcatLine) :
    fileNames (l1 ++ l2) = fileNames l1 ++ fileNames l2 := by
  simp [fileNames]

/-- C2: the concat descriptor of an ordered nonempty list of `N` frames has
exactly `N - 1` duration entries and `N + 1` file entries; its file entries
are each frame once, in order, followed by the last frame a second time, and
nothing (in particular no duration) follows that second occurrence.  For
`N = 1` this reads: two file entries and no duration entry. -/
theorem concat_descriptor_shape (images : List String) (d : ℚ)
    (lines : List ConcatLine)
    (h : createConcatListFile images d = some lines) :
    lines.countP isDurLine = images.length - 1 ∧
    lines.countP isFileLine = images.length + 1 ∧
    ∃ last, images.getLast? = some last ∧
      fileNames lines = images.map escapeQuote ++ [escapeQuote last] ∧
      lines.getLast? = some (ConcatLine.file (escapeQuote last)) := by
  unfold createConcatListFile at h
  cases hl : images.getLast? with
  | none => rw [hl] at h; exact absurd h (by simp)
  | some last =>
    rw [hl] at h
    simp only [Option.some.injEq] at h
    subst h
    refine ⟨?_, ?_, last, rfl, ?_, ?_⟩
    · rw [List.countP_append,
        concatLoop_countP_dur images.length d images 0 (by simp)]
      simp [isDurLine]
    · rw [List.countP_append, concatLoop_countP_file]
      simp [isFileLine]
    · rw [fileNames_append, concatLoop_fileNames]
      simp [fileNames]
    · simp

/-- C2 (witness): three frames produce 2 duration entries and 4 file
entries, the files being each frame once then the last frame again. -/
theorem concat_descriptor_shape_witness :
    ∃ lines, createConcatListFile ["a.jpg", "b.jpg", "c.jpg"] 3 = some lines ∧
      lines.countP isDurLine = 2 ∧
      lines.countP isFileLine = 4 ∧
      ∃ last, (["a.jpg", "b.jpg", "c.jpg"] : List String).getLast? = some last ∧
        fileNames lines =
          (["a.jpg", "b.jpg", "c.jpg"] : List String).map escapeQuote ++
            [escapeQuote last] ∧
        lines.getLast? = some (ConcatLine.file (escapeQuote last)) := by
  have h : createConcatListFile ["a.jpg", "b.jpg", "c.jpg"] 3 =
      some (concatLoop 3 3 0 ["a.jpg", "b.jpg", "c.jpg"] ++
        [ConcatLine.file (escapeQuote "c.jpg")]) := rfl
  exact ⟨_, h, concat_descriptor_shape ["a.jpg", "b.jpg", "c.jpg"] 3 _ h⟩

/-! ## C3: the timing allocator -/

/-- C3: the per-slide duration equals `max(0.5, audioDuration/frameCount)`,
is never below the 0.5 s floor, and when `audioDuration/frameCount` is below
the floor the total display time `frameCount × duration` covers the audio. -/
theorem timing_allocator_spec (A : ℚ) (N : ℕ) (hN : 1 ≤ N) (_hA : 0 < A) :
    durationPerSlide A N = max (1/2) (A / N) ∧
    1/2 ≤ durationPerSlide A N ∧
    (A / N < 1/2 → A ≤ N * durationPerSlide A N) := by
  refine ⟨rfl, le_max_left _ _, ?_⟩
  intro h
  have hNpos : (0 : ℚ) < N := by exact_mod_cast hN
  have hd : durationPerSlide A N = 1/2 := by
    unfold durationPerSlide
    exact max_eq_left h.le
  rw [hd]
  rw [div_lt_iff₀ hNpos] at h
  linarith

/-- C3 (witness): 50 frames and 2 s of audio give the floor value 0.5 s,
and 50 × 0.5 = 25 ≥ 2. -/
theorem timing_allocator_spec_witness :
    (1 ≤ 50) ∧ ((0 : ℚ) < 2) ∧
    (durationPerSlide 2 50 = max (1/2) ((2 : ℚ) / 50) ∧
      1/2 ≤ durationPerSlide 2 50 ∧
      ((2 : ℚ) / 50 < 1/2 → (2 : ℚ) ≤ 50 * durationPerSlide 2 50)) :=
  ⟨by norm_num, by norm_num, timing_allocator_spec 2 50 (by norm_num) (by norm_num)⟩

/-! ## Lemmas about the retime loops -/

lemma div_half_eq (s : ℚ) : s / (1/2) = s * 2 := by ring

lemma atempoLowLoop_spec :
    ∀ (fuel : ℕ) (s : ℚ) (a : ℕ) (r : ℚ),
      atempoLowLoop fuel s = some (a, r) →
      r = s * 2 ^ a ∧ 1/2 ≤ r ∧ (a = 0 ∨ r < 1) := by
  intro fuel
  induction fuel with
  | zero =>
    intro s a r h
    unfold atempoLowLoop at h
    by_cases hs : s < 1/2
    · rw [if_pos hs] at h; exact absurd h (by simp)
    · rw [if_neg hs] at h
      simp only [Option.some.injEq, Prod.mk.injEq] at h
      obtain ⟨ha, hr⟩ := h
      subst ha; subst hr
      exact ⟨by ring, not_lt.mp hs, Or.inl rfl⟩
  | succ n ih =>
    intro s a r h
    unfold atempoLowLoop at h
    by_cases hs : s < 1/2
    · rw [if_pos hs, Option.map_eq_some'] at h
      obtain ⟨⟨a', r'⟩, hrec, heq⟩ := h
      simp only [Prod.mk.injEq] at heq
      obtain ⟨ha, hr⟩ := heq
      subst ha; subst hr
      rw [div_half_eq] at hrec
      obtain ⟨he, hge, hc⟩ := ih (s * 2) a' r' hrec
      refine ⟨by rw [he]; ring, hge, Or.inr ?_⟩
      rcases hc with h0 | h1
      · subst h0; simp at he; rw [he]; linarith
      · exact h1
    · rw [if_neg hs] at h
      simp only [Option.some.injEq, Prod.mk.injEq] at h
      obtain ⟨ha, hr⟩ := h
      subst ha; subst hr
      exact ⟨by ring, not_lt.mp hs, Or.inl rfl⟩

lemma atempoHighLoop_spec :
    ∀ (fuel : ℕ) (s : ℚ) (b : ℕ) (r : ℚ),
      atempoHighLoop fuel s = some (b, r) →
      r = s / 2 ^ b ∧ r ≤ 2 ∧ (b = 0 ∨ 1 < r) := by
  intro fuel
  induction fuel with
  | zero =>
    intro s b r h
    unfold atempoHighLoop at h
    by_cases hs : 2 < s
    · rw [if_pos hs] at h; exact absurd h (by simp)
    · rw [if_neg hs] at h
      simp only [Option.some.injEq, Prod.mk.injEq] at h
      obtain ⟨hb, hr⟩ := h
      subst hb; subst hr
      exact ⟨by ring, not_lt.mp hs, Or.inl rfl⟩
  | succ n ih =>
    intro s b r h
    unfold atempoHighLoop at h
    by_cases hs : 2 < s
    · rw [if_pos hs, Option.map_eq_some'] at h
      obtain ⟨⟨b', r'⟩, hrec, heq⟩ := h
      simp only [Prod.mk.injEq] at heq
      obtain ⟨hb, hr⟩ := heq
      subst hb; subst hr
      obtain ⟨he, hle, hc⟩ := ih (s / 2) b' r' hrec
      have he' : r' = s / 2 ^ (b' + 1) := by
        rw [he, div_div]
        ring_nf
      refine ⟨he', hle, Or.inr ?_⟩
      rcases hc with h0 | h1
      · subst h0; simp at he; rw [he]; linarith
      · exact h1
    · rw [if_neg hs] at h
      simp only [Option.some.injEq, Prod.mk.injEq] at h
      obtain ⟨hb, hr⟩ := h
      subst hb; subst hr
      exact ⟨by ring, not_lt.mp hs, Or.inl rfl⟩

lemma atempoLowLoop_isSome :
    ∀ (fuel : ℕ) (s : ℚ), 1/2 ≤ s * 2 ^ fuel →
      (atempoLowLoop fuel s).isSome = true := by
  intro fuel
  induction fuel with
  | zero =>
    intro s h
    simp only [pow_zero, mul_one] at h
    unfold atempoLowLoop
    rw [if_neg (not_lt.mpr h)]
    rfl
  | succ n ih =>
    intro s h
    unfold atempoLowLoop
    by_cases hs : s < 1/2
    · rw [if_pos hs, Option.isSome_map']
      apply ih
      rw [div_half_eq]
      calc (1/2 : ℚ) ≤ s * 2 ^ (n + 1) := h
        _ = s * 2 * 2 ^ n := by ring
    · rw [if_neg hs]; rfl

lemma atempoHighLoop_isSome :
    ∀ (fuel : ℕ) (s : ℚ), s / 2 ^ fuel ≤ 2 →
      (atempoHighLoop fuel s).isSome = true := by
  intro fuel
  induction fuel with
  | zero =>
    intro s h
    simp only [pow_zero, div_one] at h
    unfold atempoHighLoop
    rw [if_neg (not_lt.mpr h)]
    rfl
  | succ n ih =>
    intro s h
    unfold atempoHighLoop
    by_cases hs : 2 < s
    · rw [if_pos hs, Option.isSome_map']
      apply ih
      calc s / 2 / 2 ^ n = s / 2 ^ (n + 1) := by
            rw [div_div]; ring_nf
        _ ≤ 2 := h
    · rw [if_neg hs]; rfl

/-- C10: for every finite positive speed, both stage-construction loops of
`retimeAudio` terminate — some finite fuel makes the fuel-indexed embedding
return a chain, so a finite filter chain is always produced. -/
theorem retime_loops_terminate (speed : ℚ) (hs : 0 < speed) :
    ∃ fuel, (retimeFilters fuel speed).isSome = true := by
  have hsne : speed ≠ 0 := ne_of_gt hs
  -- fuel for the doubling loop
  obtain ⟨m1, hm1⟩ : ∃ m1 : ℕ, 1/2 ≤ speed * 2 ^ m1 := by
    refine ⟨⌈1 / (2 * speed)⌉₊, ?_⟩
    have h1 : 1 / (2 * speed) ≤ (⌈1 / (2 * speed)⌉₊ : ℚ) := Nat.le_ceil _
    have h2 : ((⌈1 / (2 * speed)⌉₊ : ℕ) : ℚ) < 2 ^ ⌈1 / (2 * speed)⌉₊ := by
      exact_mod_cast Nat.lt_two_pow ⌈1 / (2 * speed)⌉₊
    have h3 : 1 / (2 * speed) ≤ (2 : ℚ) ^ ⌈1 / (2 * speed)⌉₊ := le_of_lt (lt_of_le_of_lt h1 h2)
    have h4 := mul_le_mul_of_nonneg_left h3 hs.le
    calc (1/2 : ℚ) = speed * (1 / (2 * speed)) := by field_simp
      _ ≤ speed * 2 ^ ⌈1 / (2 * speed)⌉₊ := h4
  -- fuel for the halving loop
  obtain ⟨m2, hm2⟩ : ∃ m2 : ℕ, speed < (2 : ℚ) ^ m2 := by
    refine ⟨⌈speed⌉₊, ?_⟩
    have h1 : speed ≤ (⌈speed⌉₊ : ℚ) := Nat.le_ceil _
    have h2 : ((⌈speed⌉₊ : ℕ) : ℚ) < 2 ^ ⌈speed⌉₊ := by
      exact_mod_cast Nat.lt_two_pow ⌈speed⌉₊
    exact lt_of_le_of_lt h1 h2
  refine ⟨m1 + m2, ?_⟩
  have hPle : (2 : ℚ) ^ m1 ≤ 2 ^ (m1 + m2) :=
    pow_le_pow_right₀ (by norm_num) (Nat.le_add_right m1 m2)
  have hlow : 1/2 ≤ speed * 2 ^ (m1 + m2) := by
    calc (1/2 : ℚ) ≤ speed * 2 ^ m1 := hm1
      _ ≤ speed * 2 ^ (m1 + m2) := by
          exact mul_le_mul_of_nonneg_left hPle hs.le
  have hlowSome := atempoLowLoop_isSome (m1 + m2) speed hlow
  obtain ⟨⟨a, s1⟩, hl⟩ := Option.isSome_iff_exists.mp hlowSome
  obtain ⟨he1, hge1, hc1⟩ := atempoLowLoop_spec (m1 + m2) speed a s1 hl
  have hpow : (0 : ℚ) < 2 ^ (m1 + m2) := by positivity
  have hhigh : s1 / 2 ^ (m1 + m2) ≤ 2 := by
    rcases hc1 with h0 | hlt1
    · have hseq : s1 = speed := by rw [he1, h0, pow_zero, mul_one]
      rw [hseq]
      have hm2' : speed < (2 : ℚ) ^ (m1 + m2) :=
        lt_of_lt_of_le hm2 (pow_le_pow_right₀ (by norm_num) (Nat.le_add_left m2 m1))
      have hdiv : speed / 2 ^ (m1 + m2) < 1 := (div_lt_one hpow).mpr hm2'
      linarith
    · have hd : s1 / 2 ^ (m1 + m2) ≤ s1 := by
        apply div_le_self (by linarith)
        calc (1 : ℚ) ≤ 2 ^ 0 := by norm_num
          _ ≤ 2 ^ (m1 + m2) := pow_le_pow_right₀ (by norm_num) (Nat.zero_le _)
      linarith
  have hhighSome := atempoHighLoop_isSome (m1 + m2) s1 hhigh
  obtain ⟨⟨b, s2⟩, hh⟩ := Option.isSome_iff_exists.mp hhighSome
  simp only [retimeFilters, hl, hh, Option.isSome_some]

/-- C10 (witness): speed 4 terminates; fuel 2 suffices. -/
theorem retime_loops_terminate_witness :
    (0 : ℚ) < 4 ∧ ∃ fuel, (retimeFilters fuel 4).isSome = true :=
  ⟨by norm_num, retime_loops_terminate 4 (by norm_num)⟩

lemma toFixed3_bounds (r : ℚ) (h1 : 1/2 ≤ r) (h2 : r ≤ 2) :
    1/2 ≤ toFixed3 r ∧ toFixed3 r ≤ 2 ∧ |toFixed3 r - r| ≤ 1/2000 := by
  unfold toFixed3
  have hfl : (⌊r * 1000 + 1/2⌋ : ℚ) ≤ r * 1000 + 1/2 := Int.floor_le _
  have hfg : r * 1000 + 1/2 - 1 < (⌊r * 1000 + 1/2⌋ : ℚ) := by
    have := Int.lt_floor_add_one (r * 1000 + 1/2)
    linarith
  have h500 : (500 : ℤ) ≤ ⌊r * 1000 + 1/2⌋ := by
    apply Int.le_floor.mpr
    push_cast
    linarith
  have h2000 : ⌊r * 1000 + 1/2⌋ ≤ (2000 : ℤ) := by
    have : (⌊r * 1000 + 1/2⌋ : ℚ) ≤ 2000 + 1/2 := by linarith
    by_contra hcon
    push_neg at hcon
    have : (2001 : ℚ) ≤ (⌊r * 1000 + 1/2⌋ : ℚ) := by exact_mod_cast hcon
    linarith
  have h500' : (500 : ℚ) ≤ (⌊r * 1000 + 1/2⌋ : ℚ) := by exact_mod_cast h500
  have h2000' : ((⌊r * 1000 + 1/2⌋ : ℤ) : ℚ) ≤ 2000 := by exact_mod_cast h2000
  refine ⟨?_, ?_, ?_⟩
  · rw [le_div_iff₀ (by norm_num : (0:ℚ) < 1000)]
    linarith
  · rw [div_le_iff₀ (by norm_num : (0:ℚ) < 1000)]
    linarith
  · rw [abs_le]
    have e1 : (⌊r * 1000 + 1/2⌋ : ℚ) / 1000 ≤ r + 1/2000 := by
      rw [div_le_iff₀ (by norm_num : (0:ℚ) < 1000)]
      linarith
    have e2 : r - 1/2000 ≤ (⌊r * 1000 + 1/2⌋ : ℚ) / 1000 := by
      rw [le_div_iff₀ (by norm_num : (0:ℚ) < 1000)]
      linarith
    constructor <;> linarith

/-- C4: for a finite positive speed outside the 1e-3 identity band, every
emitted atempo factor lies in [0.5, 2.0], the chain is the repeated 0.5
factors, then the repeated 2.0 factors, then the (3-decimal-formatted)
residual, and the product of all emitted factors equals the speed within
the 3-decimal formatting tolerance (relative error at most 1/1000). -/
theorem retime_chain_spec (speed : ℚ) (fuel : ℕ) (l : List ℚ)
    (_hs : 0 < speed) (_hfar : 1/1000 ≤ |speed - 1|)
    (h : retimeFilters fuel speed = some l) :
    (∀ f ∈ l, 1/2 ≤ f ∧ f ≤ 2) ∧
    (∃ a b r, l = List.replicate a (1/2) ++ List.replicate b 2 ++ [toFixed3 r] ∧
      1/2 ≤ r ∧ r ≤ 2) ∧
    |l.prod - speed| ≤ speed / 1000 := by
  unfold retimeFilters at h
  cases hl : atempoLowLoop fuel speed with
  | none => simp only [hl] at h; exact absurd h (by simp)
  | some p =>
    obtain ⟨a, s1⟩ := p
    simp only [hl] at h
    cases hh : atempoHighLoop fuel s1 with
    | none => simp only [hh] at h; exact absurd h (by simp)
    | some q =>
      obtain ⟨b, s2⟩ := q
      simp only [hh, Option.some.injEq] at h
      subst h
      obtain ⟨he1, hge1, _hc1⟩ := atempoLowLoop_spec fuel speed a s1 hl
      obtain ⟨he2, hle2, hc2⟩ := atempoHighLoop_spec fuel s1 b s2 hh
      have hs2low : 1/2 ≤ s2 := by
        rcases hc2 with h0 | h1
        · subst h0
          simp only [pow_zero, div_one] at he2
          rw [he2]; exact hge1
        · linarith
      obtain ⟨hb1, hb2, hb3⟩ := toFixed3_bounds s2 hs2low hle2
      have hpa : (0 : ℚ) < 2 ^ a := by positivity
      have hpb : (0 : ℚ) < 2 ^ b := by positivity
      refine ⟨?_, ⟨a, b, s2, rfl, hs2low, hle2⟩, ?_⟩
      · intro f hf
        rcases List.mem_append.mp hf with hf1 | hf2
        · rcases List.mem_append.mp hf1 with hfa | hfb
          · have := List.eq_of_mem_replicate hfa
            subst this
            norm_num
          · have := List.eq_of_mem_replicate hfb
            subst this
            norm_num
        · have : f = toFixed3 s2 := by simpa using hf2
          subst this
          exact ⟨hb1, hb2⟩
      · have hprod :
            (List.replicate a ((1:ℚ)/2) ++ List.replicate b 2 ++
              [toFixed3 s2]).prod = 2 ^ b / 2 ^ a * toFixed3 s2 := by
          simp [List.prod_append, List.prod_replicate]
          ring
        have hspeed : speed = 2 ^ b / 2 ^ a * s2 := by
          have ha0 : ((2:ℚ) ^ a) ≠ 0 := by positivity
          have hb0 : ((2:ℚ) ^ b) ≠ 0 := by positivity
          rw [he2, he1]
          field_simp
          ring
        rw [hprod, hspeed]
        have hfact : 2 ^ b / 2 ^ a * toFixed3 s2 - 2 ^ b / 2 ^ a * s2 =
            2 ^ b / 2 ^ a * (toFixed3 s2 - s2) := by ring
        rw [hfact, abs_mul, abs_of_pos (by positivity : (0:ℚ) < 2 ^ b / 2 ^ a)]
        have hstep : 2 ^ b / 2 ^ a * |toFixed3 s2 - s2| ≤
            2 ^ b / 2 ^ a * (1/2000) :=
          mul_le_mul_of_nonneg_left hb3 (by positivity)
        have hfinal : 2 ^ b / 2 ^ a * ((1:ℚ)/2000) ≤ 2 ^ b / 2 ^ a * s2 / 1000 := by
          rw [mul_div_assoc]
          apply mul_le_mul_of_nonneg_left _ (by positivity : (0:ℚ) ≤ 2 ^ b / 2 ^ a)
          linarith
        linarith

/-- C4 (witness): speed 4 with fuel 2 yields the chain [2, 2] whose
product is exactly 4. -/
theorem retime_chain_spec_witness :
    (0 : ℚ) < 4 ∧ (1/1000 : ℚ) ≤ |(4 : ℚ) - 1| ∧
    retimeFilters 2 4 = some [2, 2] ∧
    ((∀ f ∈ ([2, 2] : List ℚ), 1/2 ≤ f ∧ f ≤ 2) ∧
      (∃ a b r, ([2, 2] : List ℚ) =
          List.replicate a (1/2) ++ List.replicate b 2 ++ [toFixed3 r] ∧
        1/2 ≤ r ∧ r ≤ 2) ∧
      |([2, 2] : List ℚ).prod - 4| ≤ 4 / 1000) := by
  have hfl : retimeFilters 2 4 = some [2, 2] := by
    norm_num [retimeFilters, atempoLowLoop, atempoHighLoop, toFixed3]
  exact ⟨by norm_num, by norm_num, hfl,
    retime_chain_spec 4 2 [2, 2] (by norm_num) (by norm_num) hfl⟩

/-! ## C5: where the invalid-speed error is raised -/

/-- C5 (counterexample): with `speechRate = -1`, `retimeAudio` does raise
its validation error, but the trace of `createSlideshowWithTTS` performs the
external speech-synthesis call first — the claim that the error precedes
every external call is false on this code. -/
theorem invalid_speed_error_counterexample :
    retimeGuardFails (JNum.num (-1)) = true ∧
    pipelineEvents (JNum.num (-1)) false =
      [PipeEvent.ttsCall, PipeEvent.errorRaised] ∧
    isExternalCall PipeEvent.ttsCall = true ∧
    errorBeforeExternals (pipelineEvents (JNum.num (-1)) false) = false := by
  have hg : retimeGuardFails (JNum.num (-1)) = true := by
    simp only [retimeGuardFails, decide_eq_true_eq]
    norm_num
  have htr : pipelineEvents (JNum.num (-1)) false =
      [PipeEvent.ttsCall, PipeEvent.errorRaised] := by
    simp only [pipelineEvents, retimeEvents, hg, if_true]
    norm_num
  refine ⟨hg, htr, rfl, ?_⟩
  rw [htr]
  rfl

/-- C5 (amended): for every run with non-positive or non-finite speed, the
validation error is raised by `retimeAudio` immediately after the
speech-synthesis call and before any other external call — the trace is
exactly the TTS call followed by the thrown error. -/
theorem invalid_speed_error_after_tts (speed : JNum) (bgm : Bool)
    (h : retimeGuardFails speed = true) :
    pipelineEvents speed bgm = [PipeEvent.ttsCall, PipeEvent.errorRaised] := by
  cases speed with
  | num q =>
    have hq : q ≤ 0 := by simpa [retimeGuardFails] using h
    simp [pipelineEvents, retimeEvents, retimeGuardFails, hq]
  | nan => simp [pipelineEvents, retimeEvents, retimeGuardFails]
  | inf => simp [pipelineEvents, retimeEvents, retimeGuardFails]
  | negInf => simp [pipelineEvents, retimeEvents, retimeGuardFails]

/-- C5 (witness for the amended claim): speed 0 with no background music. -/
theorem invalid_speed_error_after_tts_witness :
    retimeGuardFails (JNum.num 0) = true ∧
    pipelineEvents (JNum.num 0) false =
      [PipeEvent.ttsCall, PipeEvent.errorRaised] := by
  have hg : retimeGuardFails (JNum.num 0) = true := by
    simp only [retimeGuardFails, decide_eq_true_eq]
    norm_num
  exact ⟨hg, invalid_speed_error_after_tts (JNum.num 0) false hg⟩

/-! ## C6: total display time versus audio duration -/

/-- C6 (counterexample): with 50 frames and 2 s of final audio the floor
forces 0.5 s per slide, so the non-final slides alone nominally occupy
24.5 s; together with the (truncated, hence zero) held time of the final
frame this misses the audio duration 2 s by 22.5 s — far beyond any
floating tolerance.  The claimed invariant fails whenever the floor binds
hard enough. -/
theorem duration_sum_counterexample :
    ¬ (|((50 - 1 : ℕ) : ℚ) * durationPerSlide 2 50 +
        heldFinalDuration 2 50 (durationPerSlide 2 50) - 2| ≤ 1) := by
  have hd : durationPerSlide 2 50 = 1/2 := by
    unfold durationPerSlide
    rw [max_eq_left (by norm_num)]
  have hh : heldFinalDuration 2 50 (durationPerSlide 2 50) = 0 := by
    unfold heldFinalDuration
    rw [hd]
    rw [max_eq_left (by norm_num)]
  rw [hh, hd]
  intro hcon
  rw [abs_le] at hcon
  obtain ⟨-, h2⟩ := hcon
  norm_num at h2

/-- C6 (amended): whenever the non-final slides fit inside the audio
(`(N-1)·d ≤ A` — in particular whenever `A/N` is at least the 0.5 s floor,
so the floor does not bind), the sum of the `N-1` non-final per-slide
durations plus the held duration of the final frame equals the final audio
duration exactly. -/
theorem duration_sum_amended (A : ℚ) (N : ℕ) (hN : 1 ≤ N) (hA : 0 < A) :
    (1/2 ≤ A / N → ((N - 1 : ℕ) : ℚ) * durationPerSlide A N ≤ A) ∧
    (((N - 1 : ℕ) : ℚ) * durationPerSlide A N ≤ A →
      ((N - 1 : ℕ) : ℚ) * durationPerSlide A N +
        heldFinalDuration A N (durationPerSlide A N) = A) := by
  have hNpos : (0 : ℚ) < N := by exact_mod_cast hN
  have hcast : ((N - 1 : ℕ) : ℚ) = (N : ℚ) - 1 := by
    rw [Nat.cast_sub hN, Nat.cast_one]
  constructor
  · intro h
    have hd : durationPerSlide A N = A / N := by
      unfold durationPerSlide
      exact max_eq_right h
    rw [hd, hcast]
    have hdiv : 0 < A / N := div_pos hA hNpos
    have : ((N : ℚ) - 1) * (A / N) = A - A / N := by
      field_simp
      ring
    rw [this]
    linarith
  · intro h
    unfold heldFinalDuration
    rw [max_eq_right (by linarith)]
    ring

/-- C6 (witness for the amended claim): 3 frames, 9 s of audio: per-slide
duration 3 s, non-final sum 6 s, held 3 s, total 9 s. -/
theorem duration_sum_amended_witness :
    (1 ≤ 3) ∧ ((0 : ℚ) < 9) ∧
    ((1/2 ≤ (9 : ℚ) / 3 → ((3 - 1 : ℕ) : ℚ) * durationPerSlide 9 3 ≤ 9) ∧
      (((3 - 1 : ℕ) : ℚ) * durationPerSlide 9 3 ≤ 9 →
        ((3 - 1 : ℕ) : ℚ) * durationPerSlide 9 3 +
          heldFinalDuration 9 3 (durationPerSlide 9 3) = 9)) :=
  ⟨by norm_num, by norm_num, duration_sum_amended 9 3 (by norm_num) (by norm_num)⟩

/-! ## C7: mixing never changes the total duration -/

/-- C7: for a narration whose duration equals the trim length (which is how
`createSlideshowWithTTS` invokes the mixer: `ttsLength` is the probed
narration duration), the mix output duration equals the trim length
whatever the background duration is — mixing never changes the total
duration. -/
theorem mix_preserves_duration (narr bg : String) (narrDur bgDur trim vol : ℚ)
    (h : narrDur = trim) :
    mixOutputDuration (mixNarrationWithBackground narr bg trim vol)
      narrDur bgDur = trim := by
  subst h
  simp [mixOutputDuration, mixNarrationWithBackground]

/-- C7 (witness): a 10 s narration mixed with a 3 s background and with a
30 s background both yield a 10 s output. -/
theorem mix_preserves_duration_witness :
    ((10 : ℚ) = 10) ∧
    mixOutputDuration
      (mixNarrationWithBackground "narration.wav" "bgm.mp3" 10 (3/20))
      10 3 = 10 ∧
    mixOutputDuration
      (mixNarrationWithBackground "narration.wav" "bgm.mp3" 10 (3/20))
      10 30 = 10 :=
  ⟨rfl,
    mix_preserves_duration "narration.wav" "bgm.mp3" 10 3 10 (3/20) rfl,
    mix_preserves_duration "narration.wav" "bgm.mp3" 10 30 10 (3/20) rfl⟩

/-! ## The image sequencer (`smartSortImages`)

The collator argument `col` models `new Intl.Collator(clientLocale || "en",
{ numeric: true, sensitivity: "base" }).compare` applied to the character
lists of its two string arguments; only the sign of the result is ever
used.  `LawfulCollator` states the consistency ECMA-402 guarantees of any
collator.  `Array.prototype.sort` is the stable sort of the ECMAScript
specification; for the consistent comparator below it is `List.mergeSort`
on `comparator ≤ 0`. -/

/-- Numeric value of a digit run (`parseInt(s, 10)` on a digit string). -/
def digitsVal (l : List Char) : ℕ :=
  l.foldl (fun acc c => acc * 10 + (c.toNat - 48)) 0

/-- `path.basename` (POSIX): ignore trailing separators, then keep the part
after the last separator. -/
def basenameChars (p : List Char) : List Char :=
  ((p.reverse.dropWhile (fun c => c = '/')).reverse).foldl
    (fun acc c => if c = '/' then [] else acc ++ [c]) []

/-- The maximal leading digit run of a basename. -/
def leadingDigits (l : List Char) : List Char :=
  l.takeWhile (fun c => c.isDigit)

/-- Whether the anchored prefix regex `^(\d{2,})-` matches: it backtracks
only inside the digit run and `-` is not a digit, so it matches exactly when
the maximal leading run has length at least 2 and the next character is the
dash. -/
def hasIndexPrefix (l : List Char) : Bool :=
  decide (2 ≤ (leadingDigits l).length) &&
    decide ((l.drop (leadingDigits l).length).head? = some '-')

/-- `prefixIdx`: the parsed value of the index prefix; `none` models the
`Number.POSITIVE_INFINITY` used when there is no prefix. -/
def prefixIdxOf (l : List Char) : Option ℕ :=
  if hasIndexPrefix l then some (digitsVal (leadingDigits l)) else none

/-- `nameNoPrefix`: `base.replace` of the anchored prefix `^\d{2,}-` by
the empty string. -/
def nameNoPrefixOf (l : List Char) : List Char :=
  if hasIndexPrefix l then (l.drop (leadingDigits l).length).drop 1 else l

/-- All maximal digit runs of a name with their start positions, left to
right (`nameNoPrefix.matchAll` with the digit-run pattern `\d+`).  The
accumulator carries the run currently being read: its start position and
its digits in reverse. -/
def digitRunsGo : List Char → ℕ → Option (ℕ × List Char) → List (ℕ × List Char)
  | [], _, none => []
  | [], _, some (st, run) => [(st, run.reverse)]
  | c :: rest, i, none =>
    if c.isDigit then digitRunsGo rest (i + 1) (some (i, [c]))
    else digitRunsGo rest (i + 1) none
  | c :: rest, i, some (st, run) =>
    if c.isDigit then digitRunsGo rest (i + 1) (some (st, c :: run))
    else (st, run.reverse) :: digitRunsGo rest (i + 1) none

/-- The digit runs of a character list. -/
def digitRuns (l : List Char) : List (ℕ × List Char) :=
  digitRunsGo l 0 none

/-- The state of the best-token scan: `bestLen` and `bestPos` (sentinel
value `-1`, hence integers) and the chosen number. -/
structure BestTok where
  len : ℤ
  pos : ℤ
  num : Option ℕ

/-- The best-token scan of `smartSortImages`: keep the run with
`len > bestLen || (len === bestLen && pos > bestPos)` — the longest digit
run, ties broken by the rightmost occurrence — and parse its value. -/
def bestNumOf (l : List Char) : Option ℕ :=
  ((digitRuns l).foldl
    (fun (b : BestTok) (pr : ℕ × List Char) =>
      if b.len < (pr.2.length : ℤ) ∨
          ((pr.2.length : ℤ) = b.len ∧ b.pos < (pr.1 : ℤ)) then
        { len := (pr.2.length : ℤ), pos := (pr.1 : ℤ),
          num := some (digitsVal pr.2) }
      else b)
    { len := -1, pos := -1, num := none }).num

/-- The per-path record `smartSortImages` builds before sorting. -/
structure SortItem where
  p : String
  idx : ℕ
  base : List Char
  prefixIdx : Option ℕ
  nameNoPrefix : List Char
  num : Option ℕ

/-- One entry of the `items` array: path `p` at input position `idx` with
its sortable fields. -/
def mkItem (p : String) (idx : ℕ) : SortItem :=
  { p := p
    idx := idx
    base := basenameChars p.data
    prefixIdx := prefixIdxOf (basenameChars p.data)
    nameNoPrefix := nameNoPrefixOf (basenameChars p.data)
    num := bestNumOf (nameNoPrefixOf (basenameChars p.data)) }

/-- `paths.map((p, idx) => ...)` with explicit input positions. -/
def mkItemsFrom : ℕ → List String → List SortItem
  | _, [] => []
  | i, p :: ps => mkItem p i :: mkItemsFrom (i + 1) ps

/-- `withNums.length > 0`: at least one item carries a numeric token. -/
def numericMode (items : List SortItem) : Bool :=
  items.any (fun x => x.num.isSome)

/-- The comparator fragment `a.prefixIdx - b.prefixIdx` with `none` for
`+Infinity`; the source evaluates it only when the two differ (JS
`Infinity !== Infinity` is false), and only its sign is used. -/
def prefixCmp : Option ℕ → Option ℕ → ℤ
  | some a, some b => (a : ℤ) - b
  | some _, none => -1
  | none, some _ => 1
  | none, none => 0

/-- The comparator passed to `items.sort`, as the sign-significant integer.
`numMode` is the precomputed `numericMode` flag. -/
def itemCmp (col : List Char → List Char → ℤ) (numMode : Bool)
    (a b : SortItem) : ℤ :=
  if numMode then
    match a.num, b.num with
    | some na, some nb =>
      if na ≠ nb then (na : ℤ) - nb
      else if col a.nameNoPrefix b.nameNoPrefix ≠ 0 then
        col a.nameNoPrefix b.nameNoPrefix
      else if a.prefixIdx ≠ b.prefixIdx then prefixCmp a.prefixIdx b.prefixIdx
      else (a.idx : ℤ) - b.idx
    | some _, none => -1
    | none, some _ => 1
    | none, none =>
      if a.prefixIdx ≠ b.prefixIdx then prefixCmp a.prefixIdx b.prefixIdx
      else (a.idx : ℤ) - b.idx
  else
    if a.prefixIdx ≠ b.prefixIdx then prefixCmp a.prefixIdx b.prefixIdx
    else if col a.base b.base ≠ 0 then col a.base b.base
    else (a.idx : ℤ) - b.idx

/-- The boolean `≤` induced by the comparator: `comparator(a, b) ≤ 0`. -/
def itemLe (col : List Char → List Char → ℤ) (numMode : Bool)
    (a b : SortItem) : Bool :=
  decide (itemCmp col numMode a b ≤ 0)

/-- The sorted item list of `smartSortImages`. -/
def smartSortItems (col : List Char → List Char → ℤ)
    (paths : List String) : List SortItem :=
  (mkItemsFrom 0 paths).mergeSort
    (itemLe col (numericMode (mkItemsFrom 0 paths)))

/-- `smartSortImages`: build the items, sort them with the comparator, and
return the paths in the new order. -/
def smartSortImages (col : List Char → List Char → ℤ)
    (paths : List String) : List String :=
  (smartSortItems col paths).map (fun x => x.p)

/-! ## Consistency laws of comparison functions -/

/-- Sign-level laws of a consistent integer comparison, as ECMA-402
guarantees for `Intl.Collator.compare`: swapping the arguments flips the
sign, and the induced `≤` is transitive. -/
structure CmpLaws {α : Type} (cmp : α → α → ℤ) : Prop where
  sign_swap : ∀ a b, 0 < cmp a b ↔ cmp b a < 0
  cle_trans : ∀ a b c, cmp a b ≤ 0 → cmp b c ≤ 0 → cmp a c ≤ 0

/-- A lawful collator: a consistent comparison on character lists. -/
def LawfulCollator (col : List Char → List Char → ℤ) : Prop :=
  CmpLaws col

lemma CmpLaws.zero_swap {α : Type} {cmp : α → α → ℤ} (h : CmpLaws cmp)
    {a b : α} (hz : cmp a b = 0) : cmp b a = 0 := by
  have h1 : ¬ cmp b a < 0 := by
    intro hc
    have := (h.sign_swap a b).mpr hc
    omega
  have h2 : ¬ 0 < cmp b a := by
    intro hc
    have := (h.sign_swap b a).mp hc
    omega
  omega

lemma CmpLaws.clt_of_le_of_lt {α : Type} {cmp : α → α → ℤ} (h : CmpLaws cmp)
    {a b c : α} (h1 : cmp a b ≤ 0) (h2 : cmp b c < 0) : cmp a c < 0 := by
  by_contra hcon
  push_neg at hcon
  have hca : cmp c a ≤ 0 := by
    rcases lt_or_eq_of_le hcon with hlt | heq
    · have := (h.sign_swap a c).mp hlt
      omega
    · have := h.zero_swap heq.symm
      omega
  have hcb : cmp c b ≤ 0 := h.cle_trans c a b hca h1
  have := (h.sign_swap c b).mpr h2
  omega

lemma CmpLaws.clt_of_lt_of_le {α : Type} {cmp : α → α → ℤ} (h : CmpLaws cmp)
    {a b c : α} (h1 : cmp a b < 0) (h2 : cmp b c ≤ 0) : cmp a c < 0 := by
  by_contra hcon
  push_neg at hcon
  have hca : cmp c a ≤ 0 := by
    rcases lt_or_eq_of_le hcon with hlt | heq
    · have := (h.sign_swap a c).mp hlt
      omega
    · have := h.zero_swap heq.symm
      omega
  have hba : cmp b a ≤ 0 := h.cle_trans b c a h2 hca
  have := (h.sign_swap b a).mpr h1
  omega

lemma CmpLaws.zero_trans {α : Type} {cmp : α → α → ℤ} (h : CmpLaws cmp)
    {a b c : α} (h1 : cmp a b = 0) (h2 : cmp b c = 0) : cmp a c = 0 := by
  have hac : cmp a c ≤ 0 := h.cle_trans a b c h1.le h2.le
  have hca : cmp c a ≤ 0 :=
    h.cle_trans c b a (h.zero_swap h2).le (h.zero_swap h1).le
  have hn : ¬ cmp a c < 0 := by
    intro hc
    have := (h.sign_swap c a).mpr hc
    omega
  omega

lemma CmpLaws.ctotal {α : Type} {cmp : α → α → ℤ} (h : CmpLaws cmp)
    (a b : α) : cmp a b ≤ 0 ∨ cmp b a ≤ 0 := by
  by_contra hcon
  push_neg at hcon
  obtain ⟨h1, h2⟩ := hcon
  have := (h.sign_swap a b).mp h1
  omega

/-! ## The ordering described by the spec -/

/-- Strict ascending order on prefix indices, an absent prefix counting as
`+Infinity` (follows the claim's words). -/
def pfxLt : Option ℕ → Option ℕ → Prop
  | some j, some k => j < k
  | some _, none => True
  | none, _ => False

instance (x y : Option ℕ) : Decidable (pfxLt x y) := by
  unfold pfxLt
  cases x <;> cases y <;> exact inferInstance

lemma pfxLt_iff_prefixCmp (x y : Option ℕ) :
    pfxLt x y ↔ (x ≠ y ∧ prefixCmp x y < 0) := by
  cases x <;> cases y <;> simp [pfxLt, prefixCmp] <;> omega

lemma pfxLt_trans {x y z : Option ℕ} (h1 : pfxLt x y) (h2 : pfxLt y z) :
    pfxLt x z := by
  cases x <;> cases y <;> cases z <;> simp_all [pfxLt] <;> omega

lemma pfxLt_asymm {x y : Option ℕ} (h : pfxLt x y) : ¬ pfxLt y x := by
  cases x <;> cases y <;> simp_all [pfxLt] <;> omega

lemma pfxLt_trichotomy (x y : Option ℕ) :
    pfxLt x y ∨ x = y ∨ pfxLt y x := by
  cases x <;> cases y <;> simp [pfxLt] <;> omega

/-- The ordering the claim describes for numeric mode, stated from its
words: tokened references sort ascending by token value, ties broken by the
collator on the prefix-stripped name, then by prefix index, then by
original input position; untokened references sort after all tokened ones,
ordered by prefix index then original position. -/
def specNumericLe (col : List Char → List Char → ℤ) (a b : SortItem) :
    Prop :=
  match a.num, b.num with
  | some na, some nb =>
    na < nb ∨ (na = nb ∧
      (col a.nameNoPrefix b.nameNoPrefix < 0 ∨
        (col a.nameNoPrefix b.nameNoPrefix = 0 ∧
          (pfxLt a.prefixIdx b.prefixIdx ∨
            (a.prefixIdx = b.prefixIdx ∧ a.idx ≤ b.idx)))))
  | some _, none => True
  | none, some _ => False
  | none, none =>
    pfxLt a.prefixIdx b.prefixIdx ∨
      (a.prefixIdx = b.prefixIdx ∧ a.idx ≤ b.idx)

/-- The ordering of the fallback (no token anywhere) mode: prefix index,
then the collator on the full basename, then original input position. -/
def specBaseLe (col : List Char → List Char → ℤ) (a b : SortItem) : Prop :=
  pfxLt a.prefixIdx b.prefixIdx ∨
    (a.prefixIdx = b.prefixIdx ∧
      (col a.base b.base < 0 ∨
        (col a.base b.base = 0 ∧ a.idx ≤ b.idx)))

/-- The prefix-then-index fragment of the comparator agrees with the
described order. -/
lemma prefix_branch_le_iff (x y : Option ℕ) (i j : ℕ) :
    (if x ≠ y then prefixCmp x y else (i : ℤ) - j) ≤ 0 ↔
      (pfxLt x y ∨ (x = y ∧ i ≤ j)) := by
  by_cases hxy : x = y
  · subst hxy
    rw [if_neg (by simp)]
    constructor
    · intro h
      exact Or.inr ⟨rfl, by omega⟩
    · intro h
      rcases h with h | ⟨-, h⟩
      · exact absurd h (by cases x <;> simp [pfxLt])
      · omega
  · rw [if_pos hxy]
    rw [pfxLt_iff_prefixCmp]
    constructor
    · intro h
      left
      refine ⟨hxy, ?_⟩
      rcases lt_or_eq_of_le h with hlt | heq
      · exact hlt
      · exfalso
        cases x <;> cases y <;> simp_all [prefixCmp] <;> omega
    · intro h
      rcases h with ⟨-, h⟩ | ⟨heq, -⟩
      · omega
      · exact absurd heq hxy

lemma itemCmp_numeric_le_iff (col : List Char → List Char → ℤ)
    (a b : SortItem) :
    itemCmp col true a b ≤ 0 ↔ specNumericLe col a b := by
  unfold itemCmp specNumericLe
  cases ha : a.num with
  | none =>
    cases hb : b.num with
    | none =>
      simp only [if_true]
      exact prefix_branch_le_iff a.prefixIdx b.prefixIdx a.idx b.idx
    | some nb => simp
  | some na =>
    cases hb : b.num with
    | none => simp
    | some nb =>
      simp only [if_true]
      by_cases hnn : na = nb
      · subst hnn
        rw [if_neg (by omega)]
        by_cases hc : col a.nameNoPrefix b.nameNoPrefix = 0
        · rw [if_neg (by omega)]
          rw [prefix_branch_le_iff]
          constructor
          · intro h
            exact Or.inr ⟨rfl, Or.inr ⟨hc, h⟩⟩
          · intro h
            rcases h with h | ⟨-, h⟩
            · omega
            · rcases h with h | ⟨-, h⟩
              · omega
              · exact h
        · rw [if_pos hc]
          constructor
          · intro h
            exact Or.inr ⟨rfl, Or.inl (by omega)⟩
          · intro h
            rcases h with h | ⟨-, h⟩
            · omega
            · rcases h with h | ⟨h, -⟩
              · omega
              · exact absurd h hc
      · rw [if_pos hnn]
        constructor
        · intro h
          left
          omega
        · intro h
          rcases h with h | ⟨h, -⟩
          · omega
          · exact absurd h hnn

lemma itemCmp_base_le_iff (col : List Char → List Char → ℤ)
    (a b : SortItem) :
    itemCmp col false a b ≤ 0 ↔ specBaseLe col a b := by
  unfold itemCmp specBaseLe
  simp only [Bool.false_eq_true, if_false]
  by_cases hp : a.prefixIdx = b.prefixIdx
  · rw [if_neg (by simp [hp])]
    rw [hp]
    by_cases hc : col a.base b.base = 0
    · rw [if_neg (by omega)]
      constructor
      · intro h
        exact Or.inr ⟨rfl, Or.inr ⟨hc, by omega⟩⟩
      · intro h
        rcases h with h | ⟨-, h⟩
        · exact absurd h (by cases b.prefixIdx <;> simp [pfxLt])
        · rcases h with h | ⟨-, h⟩
          · omega
          · omega
    · rw [if_pos hc]
      constructor
      · intro h
        exact Or.inr ⟨rfl, Or.inl (by omega)⟩
      · intro h
        rcases h with h | ⟨-, h⟩
        · exact absurd h (by cases b.prefixIdx <;> simp [pfxLt])
        · rcases h with h | ⟨h, -⟩
          · omega
          · exact absurd h hc
  · rw [if_pos hp]
    rw [pfxLt_iff_prefixCmp] at *
    constructor
    · intro h
      left
      refine ⟨hp, ?_⟩
      rcases lt_or_eq_of_le h with hlt | heq
      · exact hlt
      · exfalso
        rcases hpa : a.prefixIdx with _ | j <;> rcases hpb : b.prefixIdx with _ | k <;>
          rw [hpa, hpb] at heq hp <;> simp_all [prefixCmp] <;> omega
    · intro h
      rcases h with ⟨-, h⟩ | ⟨heq, -⟩
      · omega
      · exact absurd heq hp

lemma itemLe_numeric_iff (col : List Char → List Char → ℤ)
    (a b : SortItem) :
    itemLe col true a b = true ↔ specNumericLe col a b := by
  unfold itemLe
  rw [decide_eq_true_eq]
  exact itemCmp_numeric_le_iff col a b

lemma itemLe_base_iff (col : List Char → List Char → ℤ) (a b : SortItem) :
    itemLe col false a b = true ↔ specBaseLe col a b := by
  unfold itemLe
  rw [decide_eq_true_eq]
  exact itemCmp_base_le_iff col a b

/-! ## Transitivity and totality of the comparator -/

lemma specNumericLe_iff_ss (col : List Char → List Char → ℤ)
    {a b : SortItem} {na nb : ℕ}
    (ha : a.num = some na) (hb : b.num = some nb) :
    specNumericLe col a b ↔
      (na < nb ∨ (na = nb ∧
        (col a.nameNoPrefix b.nameNoPrefix < 0 ∨
          (col a.nameNoPrefix b.nameNoPrefix = 0 ∧
            (pfxLt a.prefixIdx b.prefixIdx ∨
              (a.prefixIdx = b.prefixIdx ∧ a.idx ≤ b.idx)))))) := by
  unfold specNumericLe
  rw [ha, hb]

lemma specNumericLe_iff_sn (col : List Char → List Char → ℤ)
    {a b : SortItem} {na : ℕ}
    (ha : a.num = some na) (hb : b.num = none) :
    specNumericLe col a b ↔ True := by
  unfold specNumericLe
  rw [ha, hb]

lemma specNumericLe_iff_ns (col : List Char → List Char → ℤ)
    {a b : SortItem} {nb : ℕ}
    (ha : a.num = none) (hb : b.num = some nb) :
    specNumericLe col a b ↔ False := by
  unfold specNumericLe
  rw [ha, hb]

lemma specNumericLe_iff_nn (col : List Char → List Char → ℤ)
    {a b : SortItem}
    (ha : a.num = none) (hb : b.num = none) :
    specNumericLe col a b ↔
      (pfxLt a.prefixIdx b.prefixIdx ∨
        (a.prefixIdx = b.prefixIdx ∧ a.idx ≤ b.idx)) := by
  unfold specNumericLe
  rw [ha, hb]

lemma specNumericLe_trans (col : List Char → List Char → ℤ)
    (hcol : LawfulCollator col) {a b c : SortItem}
    (h1 : specNumericLe col a b) (h2 : specNumericLe col b c) :
    specNumericLe col a c := by
  cases ha : a.num with
  | none =>
    cases hb : b.num with
    | some nb => exact ((specNumericLe_iff_ns col ha hb).mp h1).elim
    | none =>
      cases hc : c.num with
      | some nc => exact ((specNumericLe_iff_ns col hb hc).mp h2).elim
      | none =>
        rw [specNumericLe_iff_nn col ha hb] at h1
        rw [specNumericLe_iff_nn col hb hc] at h2
        rw [specNumericLe_iff_nn col ha hc]
        rcases h1 with h1 | ⟨he1, hi1⟩
        · rcases h2 with h2 | ⟨he2, -⟩
          · exact Or.inl (pfxLt_trans h1 h2)
          · exact Or.inl (he2 ▸ h1)
        · rcases h2 with h2 | ⟨he2, hi2⟩
          · exact Or.inl (he1 ▸ h2)
          · exact Or.inr ⟨he1.trans he2, le_trans hi1 hi2⟩
  | some na =>
    cases hb : b.num with
    | none =>
      cases hc : c.num with
      | some nc => exact ((specNumericLe_iff_ns col hb hc).mp h2).elim
      | none => exact (specNumericLe_iff_sn col ha hc).mpr trivial
    | some nb =>
      cases hc : c.num with
      | none => exact (specNumericLe_iff_sn col ha hc).mpr trivial
      | some nc =>
        rw [specNumericLe_iff_ss col ha hb] at h1
        rw [specNumericLe_iff_ss col hb hc] at h2
        rw [specNumericLe_iff_ss col ha hc]
        rcases h1 with h1 | ⟨he1, hr1⟩
        · rcases h2 with h2 | ⟨he2, -⟩
          · exact Or.inl (lt_trans h1 h2)
          · exact Or.inl (he2 ▸ h1)
        · subst he1
          rcases h2 with h2 | ⟨he2, hr2⟩
          · exact Or.inl h2
          · subst he2
            refine Or.inr ⟨rfl, ?_⟩
            rcases hr1 with hr1 | ⟨hz1, hp1⟩
            · rcases hr2 with hr2 | ⟨hz2, -⟩
              · exact Or.inl (hcol.clt_of_lt_of_le hr1 hr2.le)
              · exact Or.inl (hcol.clt_of_lt_of_le hr1 hz2.le)
            · rcases hr2 with hr2 | ⟨hz2, hp2⟩
              · exact Or.inl (hcol.clt_of_le_of_lt hz1.le hr2)
              · refine Or.inr ⟨hcol.zero_trans hz1 hz2, ?_⟩
                rcases hp1 with hp1 | ⟨hq1, hi1⟩
                · rcases hp2 with hp2 | ⟨hq2, -⟩
                  · exact Or.inl (pfxLt_trans hp1 hp2)
                  · exact Or.inl (hq2 ▸ hp1)
                · rcases hp2 with hp2 | ⟨hq2, hi2⟩
                  · exact Or.inl (hq1 ▸ hp2)
                  · exact Or.inr ⟨hq1.trans hq2, le_trans hi1 hi2⟩

lemma specNumericLe_total (col : List Char → List Char → ℤ)
    (hcol : LawfulCollator col) (a b : SortItem) :
    specNumericLe col a b ∨ specNumericLe col b a := by
  cases ha : a.num with
  | none =>
    cases hb : b.num with
    | some nb => exact Or.inr ((specNumericLe_iff_sn col hb ha).mpr trivial)
    | none =>
      rw [specNumericLe_iff_nn col ha hb, specNumericLe_iff_nn col hb ha]
      rcases pfxLt_trichotomy a.prefixIdx b.prefixIdx with hp | hp | hp
      · exact Or.inl (Or.inl hp)
      · rcases le_total a.idx b.idx with hi | hi
        · exact Or.inl (Or.inr ⟨hp, hi⟩)
        · exact Or.inr (Or.inr ⟨hp.symm, hi⟩)
      · exact Or.inr (Or.inl hp)
  | some na =>
    cases hb : b.num with
    | none => exact Or.inl ((specNumericLe_iff_sn col ha hb).mpr trivial)
    | some nb =>
      rw [specNumericLe_iff_ss col ha hb, specNumericLe_iff_ss col hb ha]
      rcases lt_trichotomy na nb with hn | hn | hn
      · exact Or.inl (Or.inl hn)
      · subst hn
        rcases lt_trichotomy (col a.nameNoPrefix b.nameNoPrefix) 0 with
          hcv | hcv | hcv
        · exact Or.inl (Or.inr ⟨rfl, Or.inl hcv⟩)
        · have hcv' := hcol.zero_swap hcv
          rcases pfxLt_trichotomy a.prefixIdx b.prefixIdx with hp | hp | hp
          · exact Or.inl (Or.inr ⟨rfl, Or.inr ⟨hcv, Or.inl hp⟩⟩)
          · rcases le_total a.idx b.idx with hi | hi
            · exact Or.inl (Or.inr ⟨rfl, Or.inr ⟨hcv, Or.inr ⟨hp, hi⟩⟩⟩)
            · exact Or.inr (Or.inr ⟨rfl, Or.inr ⟨hcv', Or.inr ⟨hp.symm, hi⟩⟩⟩)
          · exact Or.inr (Or.inr ⟨rfl, Or.inr ⟨hcv', Or.inl hp⟩⟩)
        · have hcv' := (hcol.sign_swap _ _).mp hcv
          exact Or.inr (Or.inr ⟨rfl, Or.inl hcv'⟩)
      · exact Or.inr (Or.inl hn)

lemma specBaseLe_trans (col : List Char → List Char → ℤ)
    (hcol : LawfulCollator col) {a b c : SortItem}
    (h1 : specBaseLe col a b) (h2 : specBaseLe col b c) :
    specBaseLe col a c := by
  unfold specBaseLe at *
  rcases h1 with h1 | ⟨he1, hr1⟩
  · rcases h2 with h2 | ⟨he2, -⟩
    · exact Or.inl (pfxLt_trans h1 h2)
    · exact Or.inl (he2 ▸ h1)
  · rcases h2 with h2 | ⟨he2, hr2⟩
    · exact Or.inl (he1 ▸ h2)
    · refine Or.inr ⟨he1.trans he2, ?_⟩
      rcases hr1 with hr1 | ⟨hz1, hi1⟩
      · rcases hr2 with hr2 | ⟨hz2, -⟩
        · exact Or.inl (hcol.clt_of_lt_of_le hr1 hr2.le)
        · exact Or.inl (hcol.clt_of_lt_of_le hr1 hz2.le)
      · rcases hr2 with hr2 | ⟨hz2, hi2⟩
        · exact Or.inl (hcol.clt_of_le_of_lt hz1.le hr2)
        · exact Or.inr ⟨hcol.zero_trans hz1 hz2, le_trans hi1 hi2⟩

lemma specBaseLe_total (col : List Char → List Char → ℤ)
    (hcol : LawfulCollator col) (a b : SortItem) :
    specBaseLe col a b ∨ specBaseLe col b a := by
  unfold specBaseLe
  rcases pfxLt_trichotomy a.prefixIdx b.prefixIdx with hp | hp | hp
  · exact Or.inl (Or.inl hp)
  · rcases lt_trichotomy (col a.base b.base) 0 with hcv | hcv | hcv
    · exact Or.inl (Or.inr ⟨hp, Or.inl hcv⟩)
    · rcases le_total a.idx b.idx with hi | hi
      · exact Or.inl (Or.inr ⟨hp, Or.inr ⟨hcv, hi⟩⟩)
      · exact Or.inr (Or.inr ⟨hp.symm, Or.inr ⟨hcol.zero_swap hcv, hi⟩⟩)
    · exact Or.inr (Or.inr ⟨hp.symm, Or.inl ((hcol.sign_swap _ _).mp hcv)⟩)
  · exact Or.inr (Or.inl hp)

/-- Transitivity of the boolean comparator relation, for either mode. -/
lemma itemLe_trans (col : List Char → List Char → ℤ)
    (hcol : LawfulCollator col) (m : Bool) :
    ∀ a b c : SortItem, itemLe col m a b → itemLe col m b c →
      itemLe col m a c := by
  intro a b c h1 h2
  cases m with
  | true =>
    rw [itemLe_numeric_iff] at *
    exact specNumericLe_trans col hcol h1 h2
  | false =>
    rw [itemLe_base_iff] at *
    exact specBaseLe_trans col hcol h1 h2

/-- Totality of the boolean comparator relation, for either mode. -/
lemma itemLe_total (col : List Char → List Char → ℤ)
    (hcol : LawfulCollator col) (m : Bool) :
    ∀ a b : SortItem, itemLe col m a b || itemLe col m b a := by
  intro a b
  rw [Bool.or_eq_true]
  cases m with
  | true =>
    rw [itemLe_numeric_iff, itemLe_numeric_iff]
    exact specNumericLe_total col hcol a b
  | false =>
    rw [itemLe_base_iff, itemLe_base_iff]
    exact specBaseLe_total col hcol a b

/-! ## Permutation and wellformedness -/

lemma mkItemsFrom_map_p : ∀ (i : ℕ) (paths : List String),
    (mkItemsFrom i paths).map (fun x => x.p) = paths := by
  intro i paths
  induction paths generalizing i with
  | nil => rfl
  | cons p ps ih => simp [mkItemsFrom, mkItem, ih]

/-- The sort output is a permutation of the items. -/
lemma smartSortImages_perm_helper (col : List Char → List Char → ℤ)
    (paths : List String) : (smartSortImages col paths).Perm paths := by
  unfold smartSortImages smartSortItems
  have h1 := (List.mergeSort_perm (mkItemsFrom 0 paths)
    (itemLe col (numericMode (mkItemsFrom 0 paths)))).map (fun x => x.p)
  rw [mkItemsFrom_map_p] at h1
  exact h1

/-- An item whose derived fields agree with its path and position — true of
every item the source builds. -/
def ItemWF (it : SortItem) : Prop := it = mkItem it.p it.idx

lemma mkItemsFrom_wf : ∀ (i : ℕ) (paths : List String) (it : SortItem),
    it ∈ mkItemsFrom i paths → ItemWF it := by
  intro i paths
  induction paths generalizing i with
  | nil => intro it h; simp [mkItemsFrom] at h
  | cons p ps ih =>
    intro it h
    simp only [mkItemsFrom] at h
    rcases List.mem_cons.mp h with h | h
    · subst h; rfl
    · exact ih (i + 1) it h

/-- Reindex a list of items with consecutive positions from `i`. -/
def reidx : ℕ → List SortItem → List SortItem
  | _, [] => []
  | i, a :: l => { a with idx := i } :: reidx (i + 1) l

lemma reidx_map_p : ∀ (i : ℕ) (l : List SortItem),
    (reidx i l).map (fun x => x.p) = l.map (fun x => x.p) := by
  intro i l
  induction l generalizing i with
  | nil => rfl
  | cons a l ih => simp [reidx, ih]

lemma mkItemsFrom_map_eq_reidx : ∀ (i : ℕ) (l : List SortItem),
    (∀ it ∈ l, ItemWF it) →
    mkItemsFrom i (l.map (fun x => x.p)) = reidx i l := by
  intro i l
  induction l generalizing i with
  | nil => intro _; rfl
  | cons a l ih =>
    intro hwf
    have ha : ItemWF a := hwf a (List.mem_cons_self a l)
    have h1 : mkItem a.p i = { a with idx := i } := by
      conv_rhs => rw [ha]
      rfl
    simp only [List.map_cons, mkItemsFrom, reidx]
    rw [h1, ih (i + 1) (fun it hit => hwf it (List.mem_cons_of_mem a hit))]

lemma numericMode_reidx : ∀ (i : ℕ) (l : List SortItem),
    numericMode (reidx i l) = numericMode l := by
  intro i l
  induction l generalizing i with
  | nil => rfl
  | cons a l ih =>
    have h := ih (i + 1)
    simp only [numericMode, reidx, List.any_cons] at h ⊢
    rw [h]

lemma numericMode_perm {l l' : List SortItem} (h : l.Perm l') :
    numericMode l = numericMode l' := by
  unfold numericMode
  apply Bool.eq_iff_iff.mpr
  rw [List.any_eq_true, List.any_eq_true]
  constructor
  · rintro ⟨x, hx, hfx⟩
    exact ⟨x, h.mem_iff.mp hx, hfx⟩
  · rintro ⟨x, hx, hfx⟩
    exact ⟨x, h.mem_iff.mpr hx, hfx⟩

lemma mem_reidx : ∀ (i : ℕ) (l : List SortItem) (b : SortItem),
    b ∈ reidx i l → ∃ a ∈ l, ∃ k, i ≤ k ∧ b = { a with idx := k } := by
  intro i l
  induction l generalizing i with
  | nil => intro b h; simp [reidx] at h
  | cons a l ih =>
    intro b h
    simp only [reidx] at h
    rcases List.mem_cons.mp h with h | h
    · exact ⟨a, List.mem_cons_self a l, i, le_refl i, h⟩
    · obtain ⟨a1, ha1, k, hk, hb⟩ := ih (i + 1) b h
      exact ⟨a1, List.mem_cons_of_mem a ha1, k, by omega, hb⟩

/-- Reindexing with increasing positions preserves the described numeric
order: the index is the last tiebreak, so only its conjunct changes. -/
lemma specNumericLe_reidx {col : List Char → List Char → ℤ}
    {a b : SortItem} {i j : ℕ}
    (h : specNumericLe col a b) (hij : i ≤ j) :
    specNumericLe col { a with idx := i } { b with idx := j } := by
  cases ha : a.num with
  | none =>
    cases hb : b.num with
    | some nb => exact ((specNumericLe_iff_ns col ha hb).mp h).elim
    | none =>
      rw [specNumericLe_iff_nn col ha hb] at h
      refine (specNumericLe_iff_nn col rfl rfl).mpr ?_
      rcases h with h | ⟨he, -⟩
      · exact Or.inl h
      · exact Or.inr ⟨he, hij⟩
  | some na =>
    cases hb : b.num with
    | none =>
      exact (specNumericLe_iff_sn col rfl rfl).mpr trivial
    | some nb =>
      rw [specNumericLe_iff_ss col ha hb] at h
      refine (specNumericLe_iff_ss col rfl rfl).mpr ?_
      rcases h with h | ⟨he, hr⟩
      · exact Or.inl h
      · refine Or.inr ⟨he, ?_⟩
        rcases hr with hr | ⟨hz, hp⟩
        · exact Or.inl hr
        · refine Or.inr ⟨hz, ?_⟩
          rcases hp with hp | ⟨hq, -⟩
          · exact Or.inl hp
          · exact Or.inr ⟨hq, hij⟩

/-- The same for the fallback order. -/
lemma specBaseLe_reidx {col : List Char → List Char → ℤ}
    {a b : SortItem} {i j : ℕ}
    (h : specBaseLe col a b) (hij : i ≤ j) :
    specBaseLe col { a with idx := i } { b with idx := j } := by
  unfold specBaseLe at h ⊢
  rcases h with h | ⟨he, hr⟩
  · exact Or.inl h
  · refine Or.inr ⟨he, ?_⟩
    rcases hr with hr | ⟨hz, -⟩
    · exact Or.inl hr
    · exact Or.inr ⟨hz, hij⟩

lemma itemLe_reidx_mono (col : List Char → List Char → ℤ) (m : Bool) :
    ∀ (a b : SortItem) (i j : ℕ), itemLe col m a b = true → i ≤ j →
      itemLe col m { a with idx := i } { b with idx := j } = true := by
  intro a b i j h hij
  cases m with
  | false =>
    rw [itemLe_base_iff] at h ⊢
    exact specBaseLe_reidx h hij
  | true =>
    rw [itemLe_numeric_iff] at h ⊢
    exact specNumericLe_reidx h hij

lemma pairwise_reidx {R : SortItem → SortItem → Prop}
    (hmono : ∀ (a b : SortItem) (i j : ℕ), R a b → i ≤ j →
      R { a with idx := i } { b with idx := j }) :
    ∀ (i : ℕ) (l : List SortItem), l.Pairwise R →
      (reidx i l).Pairwise R := by
  intro i l
  induction l generalizing i with
  | nil => intro _; exact List.Pairwise.nil
  | cons a l ih =>
    intro hp
    rcases List.pairwise_cons.mp hp with ⟨hhead, htail⟩
    show List.Pairwise R ({ a with idx := i } :: reidx (i + 1) l)
    refine List.pairwise_cons.mpr ⟨?_, ih (i + 1) htail⟩
    intro b1 hb1
    obtain ⟨b, hbmem, k, hk, rfl⟩ := mem_reidx (i + 1) l b1 hb1
    exact hmono a b i k (hhead b hbmem) (by omega)

/-- Idempotence of the sort: re-sorting its own output changes nothing. -/
lemma smartSort_idem_helper (col : List Char → List Char → ℤ)
    (hcol : LawfulCollator col) (paths : List String) :
    smartSortImages col (smartSortImages col paths) =
      smartSortImages col paths := by
  unfold smartSortImages smartSortItems
  set items1 := mkItemsFrom 0 paths with hitems1
  set m1 := numericMode items1 with hm1
  set l1 := items1.mergeSort (itemLe col m1) with hl1
  have hwf : ∀ it ∈ l1, ItemWF it := by
    intro it hit
    exact mkItemsFrom_wf 0 paths it (List.mem_mergeSort.mp hit)
  have hinner : mkItemsFrom 0 (l1.map (fun x => x.p)) = reidx 0 l1 :=
    mkItemsFrom_map_eq_reidx 0 l1 hwf
  have hm2 : numericMode (reidx 0 l1) = m1 := by
    rw [numericMode_reidx]
    exact numericMode_perm (List.mergeSort_perm items1 (itemLe col m1))
  have hsorted : l1.Pairwise (fun a b => itemLe col m1 a b = true) :=
    List.sorted_mergeSort (itemLe_trans col hcol m1)
      (itemLe_total col hcol m1) items1
  have hpw2 : (reidx 0 l1).Pairwise (fun a b => itemLe col m1 a b = true) :=
    pairwise_reidx (itemLe_reidx_mono col m1) 0 l1 hsorted
  rw [hinner, hm2]
  rw [List.mergeSort_of_sorted hpw2]
  exact reidx_map_p 0 l1

/-! ## A concrete ASCII collator -/

/-- Tokens of the ASCII natural comparison: maximal digit runs become
numeric tokens (their value), other characters are folded to lower case
("base" sensitivity restricted to ASCII).  The accumulator carries the
value of the digit run currently being read. -/
def natTokensGo : List Char → Option ℕ → List (ℕ ⊕ Char)
  | [], none => []
  | [], some v => [Sum.inl v]
  | c :: rest, none =>
    if c.isDigit then natTokensGo rest (some (c.toNat - 48))
    else Sum.inr c.toLower :: natTokensGo rest none
  | c :: rest, some v =>
    if c.isDigit then natTokensGo rest (some (v * 10 + (c.toNat - 48)))
    else Sum.inl v :: Sum.inr c.toLower :: natTokensGo rest none

/-- The token list of a name. -/
def natTokens (l : List Char) : List (ℕ ⊕ Char) := natTokensGo l none

/-- Comparison of single tokens: numbers by value, numbers before letters,
characters by code point. -/
def tokCmp : ℕ ⊕ Char → ℕ ⊕ Char → ℤ
  | Sum.inl a, Sum.inl b => (a : ℤ) - b
  | Sum.inl _, Sum.inr _ => -1
  | Sum.inr _, Sum.inl _ => 1
  | Sum.inr a, Sum.inr b => (a.toNat : ℤ) - b.toNat

/-- Lexicographic comparison of token lists, a proper prefix first. -/
def lexTokCmp : List (ℕ ⊕ Char) → List (ℕ ⊕ Char) → ℤ
  | [], [] => 0
  | [], _ :: _ => -1
  | _ :: _, [] => 1
  | a :: as, b :: bs => if tokCmp a b ≠ 0 then tokCmp a b else lexTokCmp as bs

/-- A concrete ASCII instance of the host collator: natural numeric
comparison with case folding — the restriction to ASCII names of
`Intl.Collator("en", { numeric: true, sensitivity: "base" })`. -/
def natCollator (s t : List Char) : ℤ :=
  lexTokCmp (natTokens s) (natTokens t)

lemma tokCmp_neg (a b : ℕ ⊕ Char) : tokCmp b a = - tokCmp a b := by
  rcases a with a | a <;> rcases b with b | b <;> simp [tokCmp] <;> omega

lemma tokCmp_le_trans {a b c : ℕ ⊕ Char}
    (h1 : tokCmp a b ≤ 0) (h2 : tokCmp b c ≤ 0) : tokCmp a c ≤ 0 := by
  rcases a with a | a <;> rcases b with b | b <;> rcases c with c | c <;>
    simp_all [tokCmp] <;> omega

lemma tokCmp_zero_trans {a b c : ℕ ⊕ Char}
    (h1 : tokCmp a b = 0) (h2 : tokCmp b c = 0) : tokCmp a c = 0 := by
  rcases a with a | a <;> rcases b with b | b <;> rcases c with c | c <;>
    simp_all [tokCmp] <;> omega

lemma tokCmp_lt_of_le_of_lt {a b c : ℕ ⊕ Char}
    (h1 : tokCmp a b ≤ 0) (h2 : tokCmp b c < 0) : tokCmp a c < 0 := by
  rcases a with a | a <;> rcases b with b | b <;> rcases c with c | c <;>
    simp_all [tokCmp] <;> omega

lemma tokCmp_lt_of_lt_of_le {a b c : ℕ ⊕ Char}
    (h1 : tokCmp a b < 0) (h2 : tokCmp b c ≤ 0) : tokCmp a c < 0 := by
  rcases a with a | a <;> rcases b with b | b <;> rcases c with c | c <;>
    simp_all [tokCmp] <;> omega

lemma lexTokCmp_neg : ∀ xs ys, lexTokCmp ys xs = - lexTokCmp xs ys := by
  intro xs
  induction xs with
  | nil => intro ys; cases ys <;> simp [lexTokCmp]
  | cons a as ih =>
    intro ys
    cases ys with
    | nil => simp [lexTokCmp]
    | cons b bs =>
      simp only [lexTokCmp]
      by_cases h : tokCmp a b = 0
      · have h2 : tokCmp b a = 0 := by rw [tokCmp_neg]; omega
        rw [if_neg (by omega), if_neg (by omega)]
        exact ih bs
      · have h2 : tokCmp b a ≠ 0 := by rw [tokCmp_neg]; omega
        rw [if_pos h2, if_pos h]
        rw [tokCmp_neg]

lemma lexTokCmp_le_trans :
    ∀ xs ys zs, lexTokCmp xs ys ≤ 0 → lexTokCmp ys zs ≤ 0 →
      lexTokCmp xs zs ≤ 0 := by
  intro xs
  induction xs with
  | nil =>
    intro ys zs _ _
    cases zs <;> simp [lexTokCmp]
  | cons a as ih =>
    intro ys zs h1 h2
    cases ys with
    | nil => simp [lexTokCmp] at h1
    | cons b bs =>
      cases zs with
      | nil => simp [lexTokCmp] at h2
      | cons c cs =>
        simp only [lexTokCmp] at h1 h2 ⊢
        by_cases hab : tokCmp a b = 0 <;> by_cases hbc : tokCmp b c = 0
        · have hac : tokCmp a c = 0 := tokCmp_zero_trans hab hbc
          rw [if_neg (by omega)] at h1
          rw [if_neg (by omega)] at h2
          rw [if_neg (by omega)]
          exact ih bs cs h1 h2
        · rw [if_neg (by omega)] at h1
          rw [if_pos hbc] at h2
          have hac : tokCmp a c < 0 := tokCmp_lt_of_le_of_lt hab.le (by omega)
          rw [if_pos hac.ne]
          omega
        · rw [if_pos hab] at h1
          rw [if_neg (by omega)] at h2
          have hac : tokCmp a c < 0 := tokCmp_lt_of_lt_of_le (by omega) hbc.le
          rw [if_pos hac.ne]
          omega
        · rw [if_pos hab] at h1
          rw [if_pos hbc] at h2
          have hac : tokCmp a c < 0 :=
            @tokCmp_lt_of_lt_of_le a b c (by omega) (by omega)
          rw [if_pos hac.ne]
          omega

/-- The concrete collator is lawful. -/
lemma natCollator_lawful : LawfulCollator natCollator := by
  constructor
  · intro s t
    unfold natCollator
    rw [lexTokCmp_neg (natTokens s) (natTokens t)]
    omega
  · intro s t u h1 h2
    exact lexTokCmp_le_trans _ _ _ h1 h2

/-! ## The sequencer claims -/

/-- C9: for every collator and input list, the output of `smartSortImages`
is a permutation of the input — same length, same paths as a multiset;
nothing is dropped, duplicated or invented. -/
theorem smart_sort_permutation (col : List Char → List Char → ℤ)
    (paths : List String) : (smartSortImages col paths).Perm paths :=
  smartSortImages_perm_helper col paths

/-- C1: when at least one reference carries a numeric token the sorter is
in numeric mode, and the output is a permutation of the input whose item
sequence is pairwise ordered exactly as the claim describes
(`specNumericLe`: ascending token value, ties by the collator on the
prefix-stripped name, then prefix index, then original input position;
untokened items after all tokened ones, by prefix index then position).
In particular `["b2.jpg", "a10.jpg", "a2.jpg"]`, which has no prefixes,
enters numeric mode and sorts to `["a2.jpg", "b2.jpg", "a10.jpg"]`. -/
theorem numeric_mode_ordering (col : List Char → List Char → ℤ)
    (hcol : LawfulCollator col) (paths : List String)
    (hmode : numericMode (mkItemsFrom 0 paths) = true) :
    (smartSortImages col paths).Perm paths ∧
    (smartSortItems col paths).Pairwise (specNumericLe col) ∧
    (numericMode (mkItemsFrom 0 ["b2.jpg", "a10.jpg", "a2.jpg"]) = true ∧
      smartSortImages natCollator ["b2.jpg", "a10.jpg", "a2.jpg"] =
        ["a2.jpg", "b2.jpg", "a10.jpg"]) := by
  refine ⟨smartSortImages_perm_helper col paths, ?_, by decide, ?_⟩
  · unfold smartSortItems
    rw [hmode]
    have hs : ((mkItemsFrom 0 paths).mergeSort (itemLe col true)).Pairwise
        (fun a b => itemLe col true a b = true) :=
      List.sorted_mergeSort (itemLe_trans col hcol true)
        (itemLe_total col hcol true) (mkItemsFrom 0 paths)
    exact hs.imp (fun h => (itemLe_numeric_iff col _ _).mp h)
  · simp +decide [smartSortImages, smartSortItems, List.mergeSort,
      mkItemsFrom]

/-- C1 (witness): the theorem applied to the concrete collator and the
worked example. -/
theorem numeric_mode_ordering_witness :
    numericMode (mkItemsFrom 0 ["b2.jpg", "a10.jpg", "a2.jpg"]) = true ∧
    ((smartSortImages natCollator ["b2.jpg", "a10.jpg", "a2.jpg"]).Perm
        ["b2.jpg", "a10.jpg", "a2.jpg"] ∧
      (smartSortItems natCollator ["b2.jpg", "a10.jpg", "a2.jpg"]).Pairwise
        (specNumericLe natCollator) ∧
      (numericMode (mkItemsFrom 0 ["b2.jpg", "a10.jpg", "a2.jpg"]) = true ∧
        smartSortImages natCollator ["b2.jpg", "a10.jpg", "a2.jpg"] =
          ["a2.jpg", "b2.jpg", "a10.jpg"])) :=
  ⟨by decide,
    numeric_mode_ordering natCollator natCollator_lawful
      ["b2.jpg", "a10.jpg", "a2.jpg"] (by decide)⟩

/-- C8: the order is deterministic — the embedding of the sorter is a pure
function of the input list and the collator, so two runs on the same input
are definitionally equal — and idempotent: re-sorting an already sorted
list yields the identical order, for every lawful collator (hence every
locale) and every input. -/
theorem smart_sort_idempotent (col : List Char → List Char → ℤ)
    (hcol : LawfulCollator col) (paths : List String) :
    smartSortImages col (smartSortImages col paths) =
      smartSortImages col paths :=
  smartSort_idem_helper col hcol paths

/-- C8 (witness): idempotence at the concrete collator and example list. -/
theorem smart_sort_idempotent_witness :
    smartSortImages natCollator
        (smartSortImages natCollator ["b2.jpg", "a10.jpg", "a2.jpg"]) =
      smartSortImages natCollator ["b2.jpg", "a10.jpg", "a2.jpg"] :=
  smart_sort_idempotent natCollator natCollator_lawful
    ["b2.jpg", "a10.jpg", "a2.jpg"]

end Slidedash
